import Mathlib

/-! # assetrepo: a layered asset repository

A shallow embedding of `repo.go` and `layeredrepo.go`, followed by theorems about the
composite (`Layered`) repository: which source serves a name, the shape of the name list,
the not-found errors, the fail-fast `MustGet`, and the directory listing `Dir`.

Modelling conventions.

* A Go `string` is a finite sequence of bytes. A byte is represented by the character that
  has the byte's value as its code, so that the literals of the source can be written as
  literals here. Equality, concatenation, slicing, prefix test, splitting and the
  lexicographic order `<` of Go strings are the corresponding operations on the sequence.
* A Go call either returns or panics: `Outcome`.
* A Go result `(value, error)` is a pair of two optional components, `none` being `nil`.
* A nil map and an empty map read alike, and a nil slice and an empty slice hold the same
  (empty) sequence of elements; the code never writes to `index` before replacing it by a
  fresh map. Both are modelled by the empty map, respectively the empty list.
* The sources are read-only: a method of a source is a function of its argument, and
  `Names()` returns the same list at every call.
-/

namespace assetrepo

/-! ## Values of the Go runtime -/

/-- One byte of a Go string. -/
abbrev Byte := Char

/-- Go `string`: a sequence of bytes. -/
abbrev GoString := List Byte

/-- Go `error` (non-nil), observed through its method `Error()`. -/
structure GoError where
  /-- The message returned by `Error()`. -/
  Error : GoString
deriving DecidableEq

/-- Result of running a Go call: it returns a value or it panics with a message. -/
inductive Outcome (α : Type) where
  | returns (a : α)
  | panics (msg : GoString)
deriving DecidableEq

/-- Value of type `os.FileInfo` (non-nil), observed through its methods; `Sys()` is left out. -/
structure FileInfo where
  Name : GoString
  Size : Int
  Mode : Nat
  ModTime : Int
  IsDir : Bool
deriving DecidableEq

/-! ## Library functions used by the repository -/

/-- Go `strings.HasPrefix(s, pre)`: `len(s) >= len(pre) && s[:len(pre)] == pre`. -/
def strings.HasPrefix (s pre : GoString) : Bool :=
  decide (pre.length ≤ s.length) && decide (s.take pre.length = pre)

/-- Go `strings.Replace(s, old, new, -1)` for a one-byte `old` and a one-byte `new`:
every occurrence of `old` is replaced. -/
def strings.Replace (s : GoString) (old new : Byte) : GoString :=
  s.map fun c => if c = old then new else c

/-- Go `strings.SplitN(s, sep, n)` for a one-byte `sep` and `n ≥ 0`: at most `n` pieces, the
last one being the unsplit remainder; `n = 0` gives no piece at all. -/
def strings.SplitN : GoString → Byte → Nat → List GoString
  | _, _, 0 => []
  | s, _, 1 => [s]
  | s, sep, n + 2 =>
    match s.span (fun c => c != sep) with
    | (_, []) => [s]
    | (a, _ :: b) => a :: strings.SplitN b sep (n + 1)

/-- Go `sort.Strings`: the argument rearranged in ascending order of `<` on strings. The
result of a sort under a linear order does not depend on the sorting algorithm (see
`sort.Strings_unique`), so insertion sort stands for the library's algorithm. -/
def sort.Strings (xs : List GoString) : List GoString :=
  xs.insertionSort (· ≤ ·)

/-- Go `fmt.Sprintf(format, arg)` for a format whose only verb is one `%s` and a string
operand: the operand's bytes replace the verb. -/
def fmt.Sprintf : GoString → GoString → GoString
  | [], _ => []
  | c :: rest, arg =>
    if c = '%' ∧ rest.head? = some 's' then arg ++ rest.tail
    else c :: fmt.Sprintf rest arg

/-- Go `fmt.Errorf(format, arg)`: the error whose message is `fmt.Sprintf(format, arg)`. -/
def fmt.Errorf (format arg : GoString) : GoError :=
  ⟨fmt.Sprintf format arg⟩

/-- Go slice expression `s[i:]` on a string: panics when `i > len(s)`. -/
def sliceFrom (s : GoString) (i : Nat) : Outcome GoString :=
  if i ≤ s.length then .returns (s.drop i)
  else .panics "runtime error: slice bounds out of range".toList

/-- Go index expression `xs[0]` on a slice of strings: panics when the slice is empty. -/
def indexZero (xs : List GoString) : Outcome GoString :=
  match xs with
  | [] => .panics "runtime error: index out of range".toList
  | x :: _ => .returns x

/-! ## repo.go -/

/-- Interface `AssetRepo`: the five methods of an asset source. -/
structure AssetRepo where
  Get : GoString → Outcome (Option (List Byte) × Option GoError)
  MustGet : GoString → Outcome (Option (List Byte))
  Names : List GoString
  Info : GoString → Outcome (Option FileInfo × Option GoError)
  Dir : GoString → Outcome (Option (List GoString) × Option GoError)

/-- Function type `getFunc`. -/
abbrev getFunc := GoString → Outcome (Option (List Byte) × Option GoError)

/-- Function type `mustGetFunc`. -/
abbrev mustGetFunc := GoString → Outcome (Option (List Byte))

/-- Function type `namesFunc`. -/
abbrev namesFunc := List GoString

/-- Function type `infoFunc`. -/
abbrev infoFunc := GoString → Outcome (Option FileInfo × Option GoError)

/-- Function type `dirFunc`. -/
abbrev dirFunc := GoString → Outcome (Option (List GoString) × Option GoError)

/-- Struct `AssetRepoAdapter`: five functions. -/
structure AssetRepoAdapter where
  get : getFunc
  mustGet : mustGetFunc
  names : namesFunc
  info : infoFunc
  dir : dirFunc

/-- Method `(*AssetRepoAdapter).Get`. -/
def AssetRepoAdapter.Get (arf : AssetRepoAdapter) (name : GoString) :
    Outcome (Option (List Byte) × Option GoError) :=
  arf.get name

/-- Method `(*AssetRepoAdapter).MustGet`. -/
def AssetRepoAdapter.MustGet (arf : AssetRepoAdapter) (name : GoString) :
    Outcome (Option (List Byte)) :=
  arf.mustGet name

/-- Method `(*AssetRepoAdapter).Names`. -/
def AssetRepoAdapter.Names (arf : AssetRepoAdapter) : List GoString :=
  arf.names

/-- Method `(*AssetRepoAdapter).Info`. -/
def AssetRepoAdapter.Info (arf : AssetRepoAdapter) (name : GoString) :
    Outcome (Option FileInfo × Option GoError) :=
  arf.info name

/-- Method `(*AssetRepoAdapter).Dir`. -/
def AssetRepoAdapter.Dir (arf : AssetRepoAdapter) (name : GoString) :
    Outcome (Option (List GoString) × Option GoError) :=
  arf.dir name

/-- The adapter seen through the interface `AssetRepo`. -/
def AssetRepoAdapter.toAssetRepo (arf : AssetRepoAdapter) : AssetRepo where
  Get := arf.Get
  MustGet := arf.MustGet
  Names := arf.Names
  Info := arf.Info
  Dir := arf.Dir

/-- Function `NewAdapter`. -/
def NewAdapter (f1 : getFunc) (f2 : mustGetFunc) (f3 : namesFunc) (f4 : infoFunc)
    (f5 : dirFunc) : AssetRepo :=
  AssetRepoAdapter.toAssetRepo ⟨f1, f2, f3, f4, f5⟩

/-! ## layeredrepo.go -/

/-- Go `map[string]AssetRepo`, observed through lookup. -/
abbrev RepoMap := GoString → Option AssetRepo

/-- The map made by `make(map[string]AssetRepo)`; a nil map reads the same. -/
def RepoMap.empty : RepoMap := fun _ => none

/-- Map assignment `m[name] = repo`: the entry for `name` is set, replacing an older one. -/
def RepoMap.set (m : RepoMap) (name : GoString) (repo : AssetRepo) : RepoMap :=
  fun k => if k = name then some repo else m k

/-- Struct `Layered`. -/
structure Layered where
  repos : List AssetRepo
  index : RepoMap
  names : List GoString

/-- Function `NewLayered`: the zero value of `Layered`. -/
def NewLayered : Layered :=
  ⟨[], RepoMap.empty, []⟩

/-- Method `(*Layered).addRepo`. -/
def Layered.addRepo (s : Layered) (r : AssetRepo) : Layered :=
  { s with repos := s.repos ++ [r] }

/-- The body of the inner loop of `reindex`, run for every name of `repo`. -/
def Layered.reindex.names (repo : AssetRepo) (acc : RepoMap × List GoString)
    (names : List GoString) : RepoMap × List GoString :=
  names.foldl (fun acc name => (acc.1.set name repo, acc.2 ++ [name])) acc

/-- The outer loop of `reindex` over the registered sources. -/
def Layered.reindex.repos (acc : RepoMap × List GoString) (repos : List AssetRepo) :
    RepoMap × List GoString :=
  repos.foldl (fun acc repo => Layered.reindex.names repo acc repo.Names) acc

/-- Method `(*Layered).reindex`. -/
def Layered.reindex (s : Layered) : Layered :=
  let acc := Layered.reindex.repos (RepoMap.empty, []) s.repos
  { s with index := acc.1, names := sort.Strings acc.2 }

/-- Function `NewLayeredWithRepos`. -/
def NewLayeredWithRepos (repos : List AssetRepo) : Layered :=
  (repos.foldl Layered.addRepo ⟨[], RepoMap.empty, []⟩).reindex

/-- Method `(*Layered).AddRepo`. -/
def Layered.AddRepo (s : Layered) (r : AssetRepo) : Layered :=
  (s.addRepo r).reindex

/-- Method `(*Layered).Get`. -/
def Layered.Get (s : Layered) (name : GoString) :
    Outcome (Option (List Byte) × Option GoError) :=
  match s.index name with
  | none => .returns (none, some (fmt.Errorf "Asset %s not found".toList name))
  | some r => r.Get name

/-- Method `(*Layered).MustGet`. A panic inside `Get` passes through. -/
def Layered.MustGet (s : Layered) (name : GoString) : Outcome (Option (List Byte)) :=
  match s.Get name with
  | .panics msg => .panics msg
  | .returns (_, some err) =>
    .panics ("asset: Asset(".toList ++ name ++ "): ".toList ++ err.Error)
  | .returns (asset, none) => .returns asset

/-- Method `(*Layered).Info`. -/
def Layered.Info (s : Layered) (name : GoString) :
    Outcome (Option FileInfo × Option GoError) :=
  match s.index name with
  | none => .returns (none, some (fmt.Errorf "Asset info for %s not found".toList name))
  | some r => r.Info name

/-- Map assignment `entries[elem] = true` on the `map[string]bool` of `Dir`, a map that only
ever holds `true`: it is kept as the list of its keys. -/
def entriesSet (entries : List GoString) (elem : GoString) : List GoString :=
  if elem ∈ entries then entries else entries ++ [elem]

/-- The first loop of `Dir`: the keys of `entries` after the scan of the name list. -/
def Layered.Dir.scan (dir : GoString) :
    List GoString → List GoString → Outcome (List GoString)
  | [], entries => .returns entries
  | name :: rest, entries =>
    if name.length < dir.length || !strings.HasPrefix name dir then
      Layered.Dir.scan dir rest entries
    else
      match sliceFrom name dir.length with
      | .panics msg => .panics msg
      | .returns tail =>
        match indexZero (strings.SplitN tail '/' 2) with
        | .panics msg => .panics msg
        | .returns elem => Layered.Dir.scan dir rest (entriesSet entries elem)

/-- Method `(*Layered).Dir`, given the order `range` in which the second loop meets the keys
of the map `entries` (Go leaves the iteration order of a map unspecified). -/
def Layered.DirRange (range : List GoString → List GoString) (s : Layered)
    (dir : GoString) : Outcome (List GoString × Option GoError) :=
  let dir := strings.Replace dir '\\' '/'
  match Layered.Dir.scan dir s.names [] with
  | .panics msg => .panics msg
  | .returns entries => .returns (sort.Strings (range entries), none)

/-- Method `(*Layered).Dir`, the keys of `entries` met in the order of their insertion. -/
def Layered.Dir (s : Layered) (dir : GoString) : Outcome (List GoString × Option GoError) :=
  Layered.DirRange id s dir

/-- Method `(*Layered).Names`. -/
def Layered.Names (s : Layered) : List GoString :=
  s.names

/-- The states of a repository that a caller can reach: made by `NewLayered` or by
`NewLayeredWithRepos`, then changed by `AddRepo`. -/
inductive Reachable : Layered → Prop where
  | newLayered : Reachable NewLayered
  | newLayeredWithRepos (repos : List AssetRepo) : Reachable (NewLayeredWithRepos repos)
  | addRepo {s : Layered} (r : AssetRepo) : Reachable s → Reachable (s.AddRepo r)

/-! ## assetrepo_test.go: the sources of the tests -/

/-- Test helper `adapter(names)`. The error made by `fmt.Errorf(name)` has the message `name`
(for a `name` without `%`, as in all the tests); 1420070400 is 2015-01-01 00:00:00 UTC in
seconds since the epoch. -/
def adapter (names : List GoString) : AssetRepo :=
  NewAdapter
    (fun name => .returns (if name ∈ names then (some name, none) else (none, some ⟨name⟩)))
    (fun name => .returns (some name))
    names
    (fun name => .returns (some ⟨name, 0, 0o777, 1420070400, false⟩, some ⟨name⟩))
    (fun name => .returns (some ["f1".toList, "f2".toList, "f3".toList], some ⟨name⟩))

/-- Test helper `testrepos()`. -/
def testrepos : List AssetRepo :=
  [adapter ["repo1/file1".toList, "repo1/file2".toList, "repo1/file3".toList],
   adapter ["repo1/repo2/test".toList, "repo2/test".toList],
   adapter ["repo1/repo2/test/repo3".toList, "repo3/test".toList, "repo1/repo3".toList]]

/-! ## Further sources, built like the ones of the tests -/

/-- The test helper `adapter(names)` with `get` passed to `NewAdapter` as its `getfunc`. -/
def adapterWithGet (names : List GoString) (get : getFunc) : AssetRepo :=
  NewAdapter
    get
    (fun name => .returns (some name))
    names
    (fun name => .returns (some ⟨name, 0, 0o777, 1420070400, false⟩, some ⟨name⟩))
    (fun name => .returns (some ["f1".toList, "f2".toList, "f3".toList], some ⟨name⟩))

/-- A source that lists `x` and serves the content `A` for every name. -/
def sourceA : AssetRepo :=
  adapterWithGet ["x".toList] (fun _ => .returns (some "A".toList, none))

/-- A source that lists `x` and serves the content `B` for every name. -/
def sourceB : AssetRepo :=
  adapterWithGet ["x".toList] (fun _ => .returns (some "B".toList, none))

/-- A source that lists `x` although its `Get` fails for every name with the error `gone`. -/
def sourceGone : AssetRepo :=
  adapterWithGet ["x".toList] (fun _ => .returns (none, some ⟨"gone".toList⟩))

/-- A source that lists `x` and whose `Get` panics for every name. -/
def sourcePanic : AssetRepo :=
  adapterWithGet ["x".toList] (fun _ => .panics "unreachable".toList)

/-! ## Calls that read the repository -/

/-- A call of one of the reading methods of `Layered`, with its arguments. A call of `Dir`
comes with the order in which its second loop meets the keys of its map. -/
inductive ReadCall where
  | Get (name : GoString)
  | Info (name : GoString)
  | Dir (range : List GoString → List GoString) (dir : GoString)
  | Names

/-- What a reading method gives back to its caller. -/
inductive ReadResult where
  | Get (out : Outcome (Option (List Byte) × Option GoError))
  | Info (out : Outcome (Option FileInfo × Option GoError))
  | Dir (out : Outcome (List GoString × Option GoError))
  | Names (out : List GoString)

/-- A reading method run on the receiver `s`: the receiver after the call, and the result.
The bodies of `Get`, `Info`, `Dir` and `Names` assign to no field of the receiver (`Dir`
assigns to its parameter and to its locals only), so the receiver is handed on as it is. -/
def Layered.read (s : Layered) : ReadCall → Layered × ReadResult
  | .Get name => (s, .Get (s.Get name))
  | .Info name => (s, .Info (s.Info name))
  | .Dir range dir => (s, .Dir (s.DirRange range dir))
  | .Names => (s, .Names s.Names)

/-! ## The library functions -/

theorem sort.Strings_sorted (xs : List GoString) : (sort.Strings xs).Sorted (· ≤ ·) :=
  List.sorted_insertionSort _ xs

theorem sort.Strings_perm (xs : List GoString) : (sort.Strings xs).Perm xs :=
  List.perm_insertionSort _ xs

theorem sort.Strings_unique {xs ys : List GoString} (hp : ys.Perm xs)
    (hs : ys.Sorted (· ≤ ·)) : ys = sort.Strings xs :=
  List.eq_of_perm_of_sorted (hp.trans (sort.Strings_perm xs).symm) hs
    (sort.Strings_sorted xs)

theorem sort.Strings_mem {xs : List GoString} {x : GoString} :
    x ∈ sort.Strings xs ↔ x ∈ xs :=
  (sort.Strings_perm xs).mem_iff

/-! ## The rebuild of the index and of the name list -/

theorem reindex_names_snd (repo : AssetRepo) (names : List GoString)
    (acc : RepoMap × List GoString) :
    (Layered.reindex.names repo acc names).2 = acc.2 ++ names := by
  induction names generalizing acc with
  | nil => simp [Layered.reindex.names]
  | cons n ns ih =>
    have h := ih (acc.1.set n repo, acc.2 ++ [n])
    simp only [Layered.reindex.names, List.foldl_cons] at h ⊢
    rw [h]; simp

theorem reindex_names_fst (repo : AssetRepo) (names : List GoString)
    (acc : RepoMap × List GoString) (k : GoString) :
    (Layered.reindex.names repo acc names).1 k
      = if k ∈ names then some repo else acc.1 k := by
  induction names generalizing acc with
  | nil => simp [Layered.reindex.names]
  | cons n ns ih =>
    have h := ih (acc.1.set n repo, acc.2 ++ [n])
    simp only [Layered.reindex.names, List.foldl_cons] at h ⊢
    rw [h]
    by_cases hk : k ∈ ns
    · simp [hk]
    · by_cases hn : k = n
      · simp [hn, RepoMap.set]
      · simp [hk, hn, RepoMap.set]

theorem reindex_repos_nil (acc : RepoMap × List GoString) :
    Layered.reindex.repos acc [] = acc := rfl

theorem reindex_repos_cons (acc : RepoMap × List GoString) (r : AssetRepo)
    (rs : List AssetRepo) :
    Layered.reindex.repos acc (r :: rs)
      = Layered.reindex.repos (Layered.reindex.names r acc r.Names) rs := rfl

theorem reindex_repos_append (acc : RepoMap × List GoString) (rs ts : List AssetRepo) :
    Layered.reindex.repos acc (rs ++ ts)
      = Layered.reindex.repos (Layered.reindex.repos acc rs) ts := by
  simp [Layered.reindex.repos]

theorem reindex_repos_snd (repos : List AssetRepo) (acc : RepoMap × List GoString) :
    (Layered.reindex.repos acc repos).2 = acc.2 ++ repos.flatMap AssetRepo.Names := by
  induction repos generalizing acc with
  | nil => simp [reindex_repos_nil]
  | cons r rs ih =>
    rw [reindex_repos_cons, ih, reindex_names_snd]
    simp [List.flatMap_cons]

theorem reindex_repos_fst_of_not_mem (repos : List AssetRepo)
    (acc : RepoMap × List GoString) (k : GoString) (h : ∀ r ∈ repos, k ∉ r.Names) :
    (Layered.reindex.repos acc repos).1 k = acc.1 k := by
  induction repos generalizing acc with
  | nil => rfl
  | cons r rs ih =>
    rw [reindex_repos_cons, ih _ (fun t ht => h t (List.mem_cons_of_mem _ ht)),
      reindex_names_fst, if_neg (h r (List.mem_cons_self _ _))]

theorem reindex_repos_fst_last (pre post : List AssetRepo) (b : AssetRepo)
    (acc : RepoMap × List GoString) (k : GoString) (hb : k ∈ b.Names)
    (hpost : ∀ r ∈ post, k ∉ r.Names) :
    (Layered.reindex.repos acc (pre ++ b :: post)).1 k = some b := by
  rw [reindex_repos_append, reindex_repos_cons, reindex_repos_fst_of_not_mem _ _ _ hpost,
    reindex_names_fst, if_pos hb]

theorem foldl_addRepo (rs : List AssetRepo) (s : Layered) :
    rs.foldl Layered.addRepo s = { s with repos := s.repos ++ rs } := by
  induction rs generalizing s with
  | nil => simp
  | cons r rs ih => rw [List.foldl_cons, ih]; simp [Layered.addRepo]

theorem NewLayeredWithRepos_eq (rs : List AssetRepo) :
    NewLayeredWithRepos rs
      = ⟨rs, (Layered.reindex.repos (RepoMap.empty, []) rs).1,
          sort.Strings (rs.flatMap AssetRepo.Names)⟩ := by
  simp [NewLayeredWithRepos, foldl_addRepo, Layered.reindex, reindex_repos_snd]

theorem AddRepo_eq (s : Layered) (r : AssetRepo) :
    s.AddRepo r = NewLayeredWithRepos (s.repos ++ [r]) := by
  simp [NewLayeredWithRepos_eq, Layered.AddRepo, Layered.addRepo, Layered.reindex,
    reindex_repos_snd]

theorem NewLayered_eq : NewLayered = NewLayeredWithRepos [] := by
  simp [NewLayeredWithRepos_eq, NewLayered, reindex_repos_nil, sort.Strings]

theorem foldl_AddRepo (rs : List AssetRepo) (ts : List AssetRepo) :
    rs.foldl Layered.AddRepo (NewLayeredWithRepos ts) = NewLayeredWithRepos (ts ++ rs) := by
  induction rs generalizing ts with
  | nil => simp
  | cons r rs ih =>
    rw [List.foldl_cons, AddRepo_eq, NewLayeredWithRepos_eq ts, ih]
    simp

theorem Reachable.eq_NewLayeredWithRepos {s : Layered} (h : Reachable s) :
    s = NewLayeredWithRepos s.repos := by
  induction h with
  | newLayered => exact NewLayered_eq
  | newLayeredWithRepos rs => simp [NewLayeredWithRepos_eq]
  | addRepo r _ _ => rw [AddRepo_eq]; simp [NewLayeredWithRepos_eq]

/-! ## Which source serves a name -/

/-- C1, counterexample: the sources A and B both list `x`, A is registered first and B
second; the repository built from them by `NewLayeredWithRepos`, and the one built by two
calls of `AddRepo`, answer `Get("x")` with what B returns, which is not what A returns. -/
theorem first_registered_wins_counterexample :
    "x".toList ∈ sourceA.Names ∧ "x".toList ∈ sourceB.Names ∧
    (NewLayeredWithRepos [sourceA, sourceB]).Get "x".toList = sourceB.Get "x".toList ∧
    (NewLayeredWithRepos [sourceA, sourceB]).Get "x".toList ≠ sourceA.Get "x".toList ∧
    ((NewLayered.AddRepo sourceA).AddRepo sourceB).Get "x".toList = sourceB.Get "x".toList ∧
    ((NewLayered.AddRepo sourceA).AddRepo sourceB).Get "x".toList
      ≠ sourceA.Get "x".toList := by
  decide

/-- C1, amended: last-registered wins. When a name is listed by a source B and by no source
registered after B (sources registered before B may list it as well), `Get(name)` on the
repository built from the list by `NewLayeredWithRepos`, or by successive `AddRepo` calls
on `NewLayered`, is `B.Get(name)`. -/
theorem last_registered_wins (pre post : List AssetRepo) (b : AssetRepo) (name : GoString)
    (hb : name ∈ b.Names) (hpost : ∀ r ∈ post, name ∉ r.Names) :
    (NewLayeredWithRepos (pre ++ b :: post)).Get name = b.Get name ∧
    ((pre ++ b :: post).foldl Layered.AddRepo NewLayered).Get name = b.Get name := by
  have h : (NewLayeredWithRepos (pre ++ b :: post)).Get name = b.Get name := by
    simp only [Layered.Get, NewLayeredWithRepos_eq,
      reindex_repos_fst_last pre post b _ name hb hpost]
  refine ⟨h, ?_⟩
  rw [NewLayered_eq, foldl_AddRepo, List.nil_append]
  exact h

/-- Witness of `last_registered_wins`: A registered first, B second, both listing `x`. -/
theorem last_registered_wins_witness :
    "x".toList ∈ sourceB.Names ∧
    (∀ r ∈ ([] : List AssetRepo), "x".toList ∉ r.Names) ∧
    ((NewLayeredWithRepos ([sourceA] ++ sourceB :: [])).Get "x".toList
        = sourceB.Get "x".toList ∧
      (([sourceA] ++ sourceB :: []).foldl Layered.AddRepo NewLayered).Get "x".toList
        = sourceB.Get "x".toList) :=
  ⟨by decide, by simp,
    last_registered_wins [sourceA] [] sourceB "x".toList (by decide) (by simp)⟩

/-! ## The name list -/

/-- C2: after `NewLayeredWithRepos`, and after `AddRepo` on any repository, `Names()` is in
ascending order: each element is `≤` the element that follows it, and `≤` every later one. -/
theorem Names_sorted (repos : List AssetRepo) (s : Layered) (r : AssetRepo) :
    (NewLayeredWithRepos repos).Names.Chain' (· ≤ ·) ∧
    (NewLayeredWithRepos repos).Names.Sorted (· ≤ ·) ∧
    (s.AddRepo r).Names.Chain' (· ≤ ·) ∧
    (s.AddRepo r).Names.Sorted (· ≤ ·) := by
  have h : ∀ rs, (NewLayeredWithRepos rs).Names.Sorted (· ≤ ·) := fun rs => by
    rw [NewLayeredWithRepos_eq]; exact sort.Strings_sorted _
  rw [AddRepo_eq]
  exact ⟨(h _).chain', h _, (h _).chain', h _⟩

/-- C3: in a reachable state a string is an element of `Names()` if and only if some
registered source lists it. -/
theorem Names_mem_iff (s : Layered) (h : Reachable s) (n : GoString) :
    n ∈ s.Names ↔ ∃ r ∈ s.repos, n ∈ r.Names := by
  rw [h.eq_NewLayeredWithRepos]
  simp [NewLayeredWithRepos_eq, Layered.Names, sort.Strings_mem]

/-- Witness of `Names_mem_iff`: the sources of the tests, then one more source. -/
theorem Names_mem_iff_witness :
    Reachable ((NewLayeredWithRepos testrepos).AddRepo (adapter ["addrepo/test".toList])) ∧
    ("addrepo/test".toList
        ∈ ((NewLayeredWithRepos testrepos).AddRepo (adapter ["addrepo/test".toList])).Names ↔
      ∃ r ∈ ((NewLayeredWithRepos testrepos).AddRepo (adapter ["addrepo/test".toList])).repos,
        "addrepo/test".toList ∈ r.Names) :=
  ⟨.addRepo _ (.newLayeredWithRepos _),
    Names_mem_iff _ (.addRepo _ (.newLayeredWithRepos _)) _⟩

/-- C4, counterexample: two registered sources that list the same name `a` (here the same
source registered twice) make `a` occur twice in `Names()`; so does one source that lists
`a` twice. -/
theorem Names_nodup_counterexample :
    (NewLayeredWithRepos [adapter ["a".toList], adapter ["a".toList]]).Names
      = ["a".toList, "a".toList] ∧
    ¬ (NewLayeredWithRepos [adapter ["a".toList], adapter ["a".toList]]).Names.Nodup ∧
    ((NewLayered.AddRepo (adapter ["a".toList])).AddRepo (adapter ["a".toList])).Names
      = ["a".toList, "a".toList] ∧
    (NewLayeredWithRepos [adapter ["a".toList, "a".toList]]).Names
      = ["a".toList, "a".toList] := by
  decide

/-- C4, amended: in a reachable state no string occurs more than once in `Names()` if and
only if no registered source lists a name twice and no two entries of the source list have a
name in common. -/
theorem Names_nodup_iff (s : Layered) (h : Reachable s) :
    s.Names.Nodup ↔
      (∀ r ∈ s.repos, r.Names.Nodup) ∧
      s.repos.Pairwise (fun a b => List.Disjoint a.Names b.Names) := by
  rw [← List.nodup_flatMap]
  conv_lhs => rw [h.eq_NewLayeredWithRepos]
  simp only [NewLayeredWithRepos_eq, Layered.Names]
  exact (sort.Strings_perm _).nodup_iff

/-- Witness of `Names_nodup_iff`: the sources of the tests. -/
theorem Names_nodup_iff_witness :
    Reachable (NewLayeredWithRepos testrepos) ∧
    ((NewLayeredWithRepos testrepos).Names.Nodup ↔
      (∀ r ∈ (NewLayeredWithRepos testrepos).repos, r.Names.Nodup) ∧
      (NewLayeredWithRepos testrepos).repos.Pairwise
        (fun a b => List.Disjoint a.Names b.Names)) :=
  ⟨.newLayeredWithRepos _, Names_nodup_iff _ (.newLayeredWithRepos _)⟩

/-! ## Lookup: `Get`, `MustGet`, `Info` -/

theorem index_eq_none_of_not_listed {s : Layered} (h : Reachable s) {name : GoString}
    (hn : ∀ r ∈ s.repos, name ∉ r.Names) : s.index name = none := by
  rw [h.eq_NewLayeredWithRepos]
  simp only [NewLayeredWithRepos_eq]
  rw [reindex_repos_fst_of_not_mem _ _ _ hn]
  rfl

theorem Sprintf_asset_not_found (name : GoString) :
    fmt.Sprintf "Asset %s not found".toList name
      = "Asset ".toList ++ name ++ " not found".toList := by
  simp [fmt.Sprintf]

theorem Sprintf_asset_info_not_found (name : GoString) :
    fmt.Sprintf "Asset info for %s not found".toList name
      = "Asset info for ".toList ++ name ++ " not found".toList := by
  simp [fmt.Sprintf]

/-- C5: in a reachable state (the one made by `NewLayered` included), for a name that no
registered source lists, `Get(name)` returns, with nil content and with the error whose
message is `"Asset " ++ name ++ " not found"`. This holds whatever the methods of the
sources do, panicking included: no source decides the result. -/
theorem Get_not_found (s : Layered) (h : Reachable s) (name : GoString)
    (hn : ∀ r ∈ s.repos, name ∉ r.Names) :
    s.Get name
      = .returns (none, some ⟨"Asset ".toList ++ name ++ " not found".toList⟩) := by
  simp only [Layered.Get, index_eq_none_of_not_listed h hn, fmt.Errorf,
    Sprintf_asset_not_found]

/-- Witness of `Get_not_found`: the sources of the tests and a source whose `Get` always
panics; the name `not/exist` is listed by none of them. -/
theorem Get_not_found_witness :
    Reachable ((NewLayeredWithRepos testrepos).AddRepo sourcePanic) ∧
    (∀ r ∈ ((NewLayeredWithRepos testrepos).AddRepo sourcePanic).repos,
      "not/exist".toList ∉ r.Names) ∧
    ((NewLayeredWithRepos testrepos).AddRepo sourcePanic).Get "not/exist".toList
      = .returns (none, some ⟨"Asset not/exist not found".toList⟩) :=
  ⟨.addRepo _ (.newLayeredWithRepos _), by decide,
    Get_not_found _ (.addRepo _ (.newLayeredWithRepos _)) _ (by decide)⟩

/-- C6: in a reachable state, for a name that no registered source lists, `Info(name)`
returns a nil info and the error whose message is `"Asset info for " ++ name ++
" not found"`. -/
theorem Info_not_found (s : Layered) (h : Reachable s) (name : GoString)
    (hn : ∀ r ∈ s.repos, name ∉ r.Names) :
    s.Info name
      = .returns (none, some ⟨"Asset info for ".toList ++ name ++ " not found".toList⟩) := by
  simp only [Layered.Info, index_eq_none_of_not_listed h hn, fmt.Errorf,
    Sprintf_asset_info_not_found]

/-- Witness of `Info_not_found`: the sources of the tests and the name `not/exist`. -/
theorem Info_not_found_witness :
    Reachable (NewLayeredWithRepos testrepos) ∧
    (∀ r ∈ (NewLayeredWithRepos testrepos).repos, "not/exist".toList ∉ r.Names) ∧
    (NewLayeredWithRepos testrepos).Info "not/exist".toList
      = .returns (none, some ⟨"Asset info for not/exist not found".toList⟩) :=
  ⟨.newLayeredWithRepos _, by decide,
    Info_not_found _ (.newLayeredWithRepos _) _ (by decide)⟩

/-- C7: in every state, for a name that is a key of the merged index, `Get(name)` is the
outcome of `Get(name)` on the source the index holds for it: the same content and the same
error. In particular an error of that source is returned as it is. -/
theorem Get_delegates (s : Layered) (name : GoString) (r : AssetRepo)
    (h : s.index name = some r) :
    s.Get name = r.Get name ∧
    ∀ content err, r.Get name = .returns (content, some err) →
      s.Get name = .returns (content, some err) := by
  have h1 : s.Get name = r.Get name := by simp only [Layered.Get, h]
  exact ⟨h1, fun _ _ hr => h1.trans hr⟩

/-- Witness of `Get_delegates`: a source that lists `x` and whose `Get` fails with the error
`gone`; the repository returns that error, not its own not-found error. -/
theorem Get_delegates_witness :
    (NewLayeredWithRepos [sourceGone]).index "x".toList = some sourceGone ∧
    ((NewLayeredWithRepos [sourceGone]).Get "x".toList = sourceGone.Get "x".toList ∧
      ∀ content err, sourceGone.Get "x".toList = .returns (content, some err) →
        (NewLayeredWithRepos [sourceGone]).Get "x".toList = .returns (content, some err)) :=
  ⟨rfl, Get_delegates (NewLayeredWithRepos [sourceGone]) "x".toList sourceGone rfl⟩

/-- C8, counterexample: in the reachable state made of the sources of the tests and of a
source that lists `x` and whose `Get` panics, `Get("x")` does not return an error, it
panics, and `MustGet("x")` panics with the same message. So `MustGet` panics although `Get`
returned no non-nil error. -/
theorem MustGet_panics_iff_counterexample :
    Reachable ((NewLayeredWithRepos testrepos).AddRepo sourcePanic) ∧
    ((NewLayeredWithRepos testrepos).AddRepo sourcePanic).Get "x".toList
      = .panics "unreachable".toList ∧
    ((NewLayeredWithRepos testrepos).AddRepo sourcePanic).MustGet "x".toList
      = .panics "unreachable".toList ∧
    ¬ ((∃ msg, ((NewLayeredWithRepos testrepos).AddRepo sourcePanic).MustGet "x".toList
          = .panics msg) ↔
        ∃ content err, ((NewLayeredWithRepos testrepos).AddRepo sourcePanic).Get "x".toList
          = .returns (content, some err)) := by
  have hg : ((NewLayeredWithRepos testrepos).AddRepo sourcePanic).Get "x".toList
      = .panics "unreachable".toList := by decide
  have hm : ((NewLayeredWithRepos testrepos).AddRepo sourcePanic).MustGet "x".toList
      = .panics "unreachable".toList := by decide
  refine ⟨.addRepo _ (.newLayeredWithRepos _), hg, hm, fun h => ?_⟩
  obtain ⟨content, err, he⟩ := h.1 ⟨_, hm⟩
  rw [hg] at he
  cases he

/-- C8, amended: in every state `MustGet(name)` panics if and only if `Get(name)` returns a
non-nil error or `Get(name)` itself panics. When `Get(name)` returns a non-nil error the
panic message is `"asset: Asset(" ++ name ++ "): "` followed by the message of the error;
when `Get(name)` panics, `MustGet(name)` panics with the message of that panic; and when
`Get(name)` returns a nil error, `MustGet(name)` returns the content `Get(name)` returns. -/
theorem MustGet_outcome (s : Layered) (name : GoString) :
    ((∃ msg, s.MustGet name = .panics msg) ↔
      (∃ content err, s.Get name = .returns (content, some err)) ∨
      ∃ msg, s.Get name = .panics msg) ∧
    (∀ content err, s.Get name = .returns (content, some err) →
      s.MustGet name
        = .panics ("asset: Asset(".toList ++ name ++ "): ".toList ++ err.Error)) ∧
    (∀ msg, s.Get name = .panics msg → s.MustGet name = .panics msg) ∧
    (∀ content, s.Get name = .returns (content, none) → s.MustGet name = .returns content) := by
  cases hg : s.Get name with
  | panics msg => simp [Layered.MustGet, hg]
  | returns res =>
    obtain ⟨content, err⟩ := res
    cases err with
    | none => simp [Layered.MustGet, hg]
    | some e => simp [Layered.MustGet, hg]

/-- Witness of `MustGet_outcome`: the sources of the tests and a source whose `Get` panics.
For `not/exist`, `Get` returns its not-found error and `MustGet` panics with the composed
message; for `x`, the panic of the source passes through; for `repo2/test`, `MustGet`
returns the content. -/
theorem MustGet_outcome_witness :
    (((NewLayeredWithRepos testrepos).AddRepo sourcePanic).Get "not/exist".toList
        = .returns (none, some ⟨"Asset not/exist not found".toList⟩) ∧
      ((NewLayeredWithRepos testrepos).AddRepo sourcePanic).MustGet "not/exist".toList
        = .panics "asset: Asset(not/exist): Asset not/exist not found".toList) ∧
    (((NewLayeredWithRepos testrepos).AddRepo sourcePanic).Get "x".toList
        = .panics "unreachable".toList ∧
      ((NewLayeredWithRepos testrepos).AddRepo sourcePanic).MustGet "x".toList
        = .panics "unreachable".toList) ∧
    (((NewLayeredWithRepos testrepos).AddRepo sourcePanic).Get "repo2/test".toList
        = .returns (some "repo2/test".toList, none) ∧
      ((NewLayeredWithRepos testrepos).AddRepo sourcePanic).MustGet "repo2/test".toList
        = .returns (some "repo2/test".toList)) :=
  ⟨⟨by decide,
      (MustGet_outcome ((NewLayeredWithRepos testrepos).AddRepo sourcePanic)
        "not/exist".toList).2.1 none ⟨"Asset not/exist not found".toList⟩ (by decide)⟩,
    ⟨by decide,
      (MustGet_outcome ((NewLayeredWithRepos testrepos).AddRepo sourcePanic)
        "x".toList).2.2.1 "unreachable".toList (by decide)⟩,
    ⟨by decide,
      (MustGet_outcome ((NewLayeredWithRepos testrepos).AddRepo sourcePanic)
        "repo2/test".toList).2.2.2 (some "repo2/test".toList) (by decide)⟩⟩

/-! ## The directory listing `Dir` -/

theorem HasPrefix_iff (s pre : GoString) : strings.HasPrefix s pre = true ↔ pre <+: s := by
  simp only [strings.HasPrefix, Bool.and_eq_true, decide_eq_true_eq]
  constructor
  · rintro ⟨_, h⟩
    exact List.prefix_iff_eq_take.2 h.symm
  · intro h
    exact ⟨h.length_le, (List.prefix_iff_eq_take.1 h).symm⟩

theorem indexZero_SplitN_two (t : GoString) (sep : Byte) :
    indexZero (strings.SplitN t sep 2) = .returns (t.takeWhile (fun c => c != sep)) := by
  simp only [strings.SplitN, List.span_eq_take_drop]
  have htd := List.takeWhile_append_dropWhile (fun c => c != sep) t
  cases hd : t.dropWhile (fun c => c != sep) with
  | nil =>
    rw [hd, List.append_nil] at htd
    simp [indexZero, htd]
  | cons c cs => simp [indexZero]

theorem takeWhile_ne_eq_iff (sep : Byte) (rest e : GoString) :
    rest.takeWhile (fun c => c != sep) = e ↔
      sep ∉ e ∧ (rest = e ∨ ∃ t, rest = e ++ sep :: t) := by
  constructor
  · intro h
    subst h
    refine ⟨fun hm => by simpa using List.mem_takeWhile_imp hm, ?_⟩
    have htd := List.takeWhile_append_dropWhile (fun c => c != sep) rest
    cases hd : rest.dropWhile (fun c => c != sep) with
    | nil =>
      rw [hd, List.append_nil] at htd
      exact Or.inl htd.symm
    | cons c cs =>
      have hc := List.head_dropWhile_not (fun c => c != sep) rest (by simp [hd])
      simp only [hd, List.head_cons] at hc
      have hc2 : c = sep := by simpa using hc
      rw [hd, hc2] at htd
      exact Or.inr ⟨cs, htd.symm⟩
  · rintro ⟨hne, h | ⟨t, h⟩⟩
    · subst h
      rw [List.takeWhile_eq_self_iff]
      intro x hx
      simp only [bne_iff_ne, ne_eq]
      rintro rfl
      exact hne hx
    · subst h
      rw [List.takeWhile_append_of_pos]
      · simp [List.takeWhile_cons]
      · intro x hx
        simp only [bne_iff_ne, ne_eq]
        rintro rfl
        exact hne hx

theorem entriesSet_mem (entries : List GoString) (elem e : GoString) :
    e ∈ entriesSet entries elem ↔ e ∈ entries ∨ e = elem := by
  unfold entriesSet
  split
  · constructor
    · exact Or.inl
    · rintro (h | rfl)
      · exact h
      · assumption
  · simp

theorem entriesSet_nodup (entries : List GoString) (elem : GoString) (h : entries.Nodup) :
    (entriesSet entries elem).Nodup := by
  unfold entriesSet
  split
  · exact h
  · rename_i hn
    exact List.Nodup.append h (List.nodup_singleton _) (by simpa using hn)

theorem scan_spec (dir : GoString) (names entries : List GoString) :
    ∃ res, Layered.Dir.scan dir names entries = .returns res ∧
      (entries.Nodup → res.Nodup) ∧
      ∀ e, e ∈ res ↔ e ∈ entries ∨
        ∃ n ∈ names, dir <+: n ∧ (n.drop dir.length).takeWhile (fun c => c != '/') = e := by
  induction names generalizing entries with
  | nil => exact ⟨entries, rfl, id, by simp⟩
  | cons n ns ih =>
    by_cases hp : dir <+: n
    · have hlen : ¬ n.length < dir.length := Nat.not_lt.2 hp.length_le
      obtain ⟨res, hres, hnd, hmem⟩ :=
        ih (entriesSet entries ((n.drop dir.length).takeWhile (fun c => c != '/')))
      refine ⟨res, ?_, fun h => hnd (entriesSet_nodup _ _ h), ?_⟩
      · simp only [Layered.Dir.scan, hlen, (HasPrefix_iff n dir).2 hp, sliceFrom,
          hp.length_le, indexZero_SplitN_two]
        simpa using hres
      · intro e
        rw [hmem, entriesSet_mem]
        constructor
        · rintro ((h | h) | ⟨m, hm, h⟩)
          · exact Or.inl h
          · exact Or.inr ⟨n, List.mem_cons_self _ _, hp, h.symm⟩
          · exact Or.inr ⟨m, List.mem_cons_of_mem _ hm, h⟩
        · rintro (h | ⟨m, hm, hpm, h⟩)
          · exact Or.inl (Or.inl h)
          · rcases List.mem_cons.1 hm with rfl | hm
            · exact Or.inl (Or.inr h.symm)
            · exact Or.inr ⟨m, hm, hpm, h⟩
    · obtain ⟨res, hres, hnd, hmem⟩ := ih entries
      have hf : strings.HasPrefix n dir = false := by
        rw [← Bool.not_eq_true, HasPrefix_iff]; exact hp
      refine ⟨res, ?_, hnd, ?_⟩
      · simp only [Layered.Dir.scan, hf]
        simpa using hres
      · intro e
        rw [hmem]
        constructor
        · rintro (h | ⟨m, hm, h⟩)
          · exact Or.inl h
          · exact Or.inr ⟨m, List.mem_cons_of_mem _ hm, h⟩
        · rintro (h | ⟨m, hm, hpm, h⟩)
          · exact Or.inl h
          · rcases List.mem_cons.1 hm with rfl | hm
            · exact absurd hpm hp
            · exact Or.inr ⟨m, hm, hpm, h⟩

theorem sort.Strings_congr {xs ys : List GoString} (h : xs.Perm ys) :
    sort.Strings xs = sort.Strings ys :=
  sort.Strings_unique ((sort.Strings_perm xs).trans h) (sort.Strings_sorted xs)

theorem DirRange_eq_Dir (range : List GoString → List GoString)
    (hrange : ∀ l, (range l).Perm l) (s : Layered) (dir : GoString) :
    s.DirRange range dir = s.Dir dir := by
  simp only [Layered.Dir, Layered.DirRange]
  split
  · rfl
  · simp only [id]
    rw [sort.Strings_congr (hrange _)]

theorem DirRange_spec (range : List GoString → List GoString)
    (hrange : ∀ l, (range l).Perm l) (s : Layered) (dir : GoString) :
    ∃ res, s.DirRange range dir = .returns (res, none) ∧
      res.Sorted (· < ·) ∧
      ∀ e, e ∈ res ↔
        ∃ n ∈ s.names, strings.Replace dir '\\' '/' <+: n ∧
          (n.drop (strings.Replace dir '\\' '/').length).takeWhile (fun c => c != '/') = e := by
  obtain ⟨ks, hks, hnd, hmem⟩ := scan_spec (strings.Replace dir '\\' '/') s.names []
  refine ⟨sort.Strings (range ks), ?_, ?_, ?_⟩
  · simp only [Layered.DirRange, hks]
  · refine (sort.Strings_sorted _).lt_of_le ?_
    exact ((sort.Strings_perm _).trans (hrange ks)).nodup_iff.2 (hnd List.nodup_nil)
  · intro e
    rw [sort.Strings_mem, (hrange ks).mem_iff, hmem]
    simp

/-- C9: in every state, for every prefix `p` and whatever the order in which the keys of the
intermediate map are met, `Dir(p)` returns a list and a nil error, and a string `e` is an
element of that list if and only if some name `n` of `Names()` is `p' ++ rest`, where `p'` is
`p` with each backslash replaced by a slash, and `e` is `rest` cut before its first `/`
(all of `rest` when it has no `/`). For the sources of the tests `Dir("repo1/")` is
`["file1", "file2", "file3", "repo2", "repo3"]`. -/
theorem Dir_mem_iff (range : List GoString → List GoString)
    (hrange : ∀ l, (range l).Perm l) (s : Layered) (p : GoString) :
    (∃ res, s.DirRange range p = .returns (res, none) ∧
      ∀ e, e ∈ res ↔
        ∃ n ∈ s.Names, ∃ rest,
          n = p.map (fun c => if c = '\\' then '/' else c) ++ rest ∧
          '/' ∉ e ∧ (rest = e ∨ ∃ t, rest = e ++ '/' :: t)) ∧
    (NewLayeredWithRepos testrepos).DirRange range "repo1/".toList
      = .returns (["file1".toList, "file2".toList, "file3".toList, "repo2".toList,
          "repo3".toList], none) := by
  constructor
  · obtain ⟨res, hres, -, hmem⟩ := DirRange_spec range hrange s p
    refine ⟨res, hres, fun e => ?_⟩
    rw [hmem]
    simp only [strings.Replace, Layered.Names]
    constructor
    · rintro ⟨n, hn, ⟨rest, rfl⟩, h⟩
      rw [List.drop_left] at h
      exact ⟨_, hn, rest, rfl, (takeWhile_ne_eq_iff '/' rest e).1 h⟩
    · rintro ⟨n, hn, rest, rfl, h⟩
      refine ⟨_, hn, ⟨rest, rfl⟩, ?_⟩
      rw [List.drop_left]
      exact (takeWhile_ne_eq_iff '/' rest e).2 h
  · rw [DirRange_eq_Dir range hrange]
    decide

/-- Witness of `Dir_mem_iff`: the keys met in the reverse of their insertion order, the
sources of the tests and the prefix `repo1\`. -/
theorem Dir_mem_iff_witness :
    (∀ l : List GoString, (List.reverse l).Perm l) ∧
    ((∃ res, (NewLayeredWithRepos testrepos).DirRange List.reverse "repo1\\".toList
        = .returns (res, none) ∧
      ∀ e, e ∈ res ↔
        ∃ n ∈ (NewLayeredWithRepos testrepos).Names, ∃ rest,
          n = "repo1\\".toList.map (fun c => if c = '\\' then '/' else c) ++ rest ∧
          '/' ∉ e ∧ (rest = e ∨ ∃ t, rest = e ++ '/' :: t)) ∧
    (NewLayeredWithRepos testrepos).DirRange List.reverse "repo1/".toList
      = .returns (["file1".toList, "file2".toList, "file3".toList, "repo2".toList,
          "repo3".toList], none)) :=
  ⟨List.reverse_perm,
    Dir_mem_iff List.reverse List.reverse_perm (NewLayeredWithRepos testrepos)
      "repo1\\".toList⟩

/-- C10: in every state, for every prefix and whatever the order in which the keys of the
intermediate map are met, `Dir(prefix)` returns a list in strictly ascending order: each
element is `<` the element that follows it and `<` every later one, so no string occurs
twice. -/
theorem Dir_strictly_ascending (range : List GoString → List GoString)
    (hrange : ∀ l, (range l).Perm l) (s : Layered) (p : GoString) :
    ∃ res, s.DirRange range p = .returns (res, none) ∧
      res.Chain' (· < ·) ∧ res.Sorted (· < ·) ∧ res.Nodup := by
  obtain ⟨res, hres, hs, -⟩ := DirRange_spec range hrange s p
  exact ⟨res, hres, hs.chain', hs, hs.nodup⟩

/-- Witness of `Dir_strictly_ascending`: two sources that both list `d/a/1`, three names
with the first segment `a` after `d/`, and the keys met in reverse order. -/
theorem Dir_strictly_ascending_witness :
    (∀ l : List GoString, (List.reverse l).Perm l) ∧
    ∃ res,
      (NewLayeredWithRepos [adapter ["d/b".toList, "d/a/1".toList, "d/a/2".toList],
          adapter ["d/a/1".toList]]).DirRange List.reverse "d/".toList
        = .returns (res, none) ∧
      res.Chain' (· < ·) ∧ res.Sorted (· < ·) ∧ res.Nodup :=
  ⟨List.reverse_perm, Dir_strictly_ascending List.reverse List.reverse_perm _ _⟩

/-- C11: in every state, for every prefix and whatever the order in which the keys of the
intermediate map are met, `Dir` returns (the slice `name[len(prefix):]` and the index `[0]`
of the split do not panic) with a nil error; and when no name of `Names()` starts with the
prefix, backslashes replaced by slashes, the returned list is empty. -/
theorem Dir_never_fails (range : List GoString → List GoString)
    (hrange : ∀ l, (range l).Perm l) (s : Layered) (p : GoString) :
    ∃ res, s.DirRange range p = .returns (res, none) ∧
      ((∀ n ∈ s.Names, ¬ p.map (fun c => if c = '\\' then '/' else c) <+: n) → res = []) := by
  obtain ⟨res, hres, -, hmem⟩ := DirRange_spec range hrange s p
  refine ⟨res, hres, fun hno => ?_⟩
  rw [List.eq_nil_iff_forall_not_mem]
  intro e he
  obtain ⟨n, hn, hp, -⟩ := (hmem e).1 he
  exact hno n hn hp

/-- Witness of `Dir_never_fails`: the sources of the tests, the keys met in reverse order, and
a prefix longer than every name. -/
theorem Dir_never_fails_witness :
    (∀ l : List GoString, (List.reverse l).Perm l) ∧
    ∃ res,
      (NewLayeredWithRepos testrepos).DirRange List.reverse
          "repo1/repo2/test/repo3/deeper".toList = .returns (res, none) ∧
      ((∀ n ∈ (NewLayeredWithRepos testrepos).Names,
          ¬ "repo1/repo2/test/repo3/deeper".toList.map
              (fun c => if c = '\\' then '/' else c) <+: n) → res = []) :=
  ⟨List.reverse_perm, Dir_never_fails List.reverse List.reverse_perm _ _⟩

/-- C12: rebuild on add equals building from scratch. `AddRepo(r)` after
`NewLayeredWithRepos(rs)` gives the state (source list, merged index, name list) of
`NewLayeredWithRepos(rs ++ [r])`; `AddRepo` of each element of `rs` in order after
`NewLayered` gives the state of `NewLayeredWithRepos(rs)`; and on any receiver `AddRepo(r)`
gives the state built from scratch from the receiver's sources followed by `r`. So the
reading methods answer alike on both. -/
theorem AddRepo_rebuilds (rs : List AssetRepo) (r : AssetRepo) (s : Layered) :
    (NewLayeredWithRepos rs).AddRepo r = NewLayeredWithRepos (rs ++ [r]) ∧
    rs.foldl Layered.AddRepo NewLayered = NewLayeredWithRepos rs ∧
    s.AddRepo r = NewLayeredWithRepos (s.repos ++ [r]) ∧
    ∀ c, ((NewLayeredWithRepos rs).AddRepo r).read c
      = ((NewLayeredWithRepos (rs ++ [r])).read c) := by
  have h1 : (NewLayeredWithRepos rs).AddRepo r = NewLayeredWithRepos (rs ++ [r]) := by
    rw [AddRepo_eq, NewLayeredWithRepos_eq rs]
  refine ⟨h1, ?_, AddRepo_eq s r, fun c => by rw [h1]⟩
  rw [NewLayered_eq, foldl_AddRepo, List.nil_append]

theorem reindex_repos_fst_some (repos : List AssetRepo) (acc : RepoMap × List GoString)
    (k : GoString) (r : AssetRepo) (h : (Layered.reindex.repos acc repos).1 k = some r) :
    acc.1 k = some r ∨ (r ∈ repos ∧ k ∈ r.Names) := by
  induction repos generalizing acc with
  | nil => exact Or.inl h
  | cons t ts ih =>
    rw [reindex_repos_cons] at h
    rcases ih _ h with h' | ⟨hm, hk⟩
    · rw [reindex_names_fst] at h'
      by_cases hkt : k ∈ t.Names
      · rw [if_pos hkt] at h'
        cases h'
        exact Or.inr ⟨List.mem_cons_self _ _, hkt⟩
      · rw [if_neg hkt] at h'
        exact Or.inl h'
    · exact Or.inr ⟨List.mem_cons_of_mem _ hm, hk⟩

theorem exists_last_listing (rs : List AssetRepo) (name : GoString)
    (h : ∃ r ∈ rs, name ∈ r.Names) :
    ∃ pre b post, rs = pre ++ b :: post ∧ name ∈ b.Names ∧ ∀ r ∈ post, name ∉ r.Names := by
  induction rs with
  | nil => simp at h
  | cons t ts ih =>
    by_cases hts : ∃ r ∈ ts, name ∈ r.Names
    · obtain ⟨pre, b, post, rfl, hb, hpost⟩ := ih hts
      exact ⟨t :: pre, b, post, rfl, hb, hpost⟩
    · obtain ⟨r, hr, hn⟩ := h
      rcases List.mem_cons.1 hr with rfl | hr
      · exact ⟨[], r, ts, rfl, hn, fun x hx hxn => hts ⟨x, hx, hxn⟩⟩
      · exact absurd ⟨r, hr, hn⟩ hts

/-- C13: the merged-index invariant. In a reachable state every key of the merged index is
mapped to a source that is a member of the registered source list and that lists the key;
and every name listed by a registered source is a key of the index. -/
theorem index_invariant (s : Layered) (h : Reachable s) :
    (∀ k r, s.index k = some r → r ∈ s.repos ∧ k ∈ r.Names) ∧
    (∀ r ∈ s.repos, ∀ k ∈ r.Names, (s.index k).isSome = true) := by
  constructor
  · intro k r hk
    rw [h.eq_NewLayeredWithRepos] at hk
    simp only [NewLayeredWithRepos_eq] at hk
    rcases reindex_repos_fst_some _ _ _ _ hk with h' | h'
    · simp [RepoMap.empty] at h'
    · exact h'
  · intro r hr k hk
    obtain ⟨pre, b, post, hrs, hb, hpost⟩ := exists_last_listing s.repos k ⟨r, hr, hk⟩
    rw [h.eq_NewLayeredWithRepos]
    simp only [NewLayeredWithRepos_eq]
    rw [hrs, reindex_repos_fst_last pre post b _ k hb hpost]
    rfl

/-- Witness of `index_invariant`: the sources of the tests, then one more source. -/
theorem index_invariant_witness :
    Reachable ((NewLayeredWithRepos testrepos).AddRepo sourceA) ∧
    ((∀ k r, ((NewLayeredWithRepos testrepos).AddRepo sourceA).index k = some r →
        r ∈ ((NewLayeredWithRepos testrepos).AddRepo sourceA).repos ∧ k ∈ r.Names) ∧
    (∀ r ∈ ((NewLayeredWithRepos testrepos).AddRepo sourceA).repos, ∀ k ∈ r.Names,
        (((NewLayeredWithRepos testrepos).AddRepo sourceA).index k).isSome = true)) :=
  ⟨.addRepo _ (.newLayeredWithRepos _),
    index_invariant _ (.addRepo _ (.newLayeredWithRepos _))⟩

/-- C14: in every state, for a name that is a key of the merged index, `Info(name)` is the
outcome of `Info(name)` on the source the index holds for it, info and error together. For
the sources of the tests `Info("repo2/test")` returns an info whose `Name()` is
`repo2/test` together with a non-nil error. -/
theorem Info_delegates (s : Layered) (name : GoString) (r : AssetRepo)
    (h : s.index name = some r) :
    s.Info name = r.Info name ∧
    (∀ info err, r.Info name = .returns (info, err) → s.Info name = .returns (info, err)) ∧
    (NewLayeredWithRepos testrepos).Info "repo2/test".toList
      = .returns (some ⟨"repo2/test".toList, 0, 0o777, 1420070400, false⟩,
          some ⟨"repo2/test".toList⟩) := by
  have h1 : s.Info name = r.Info name := by simp only [Layered.Info, h]
  exact ⟨h1, fun _ _ hr => h1.trans hr, by decide⟩

/-- Witness of `Info_delegates`: the sources of the tests and the name `repo2/test`, owned by
the second source. -/
theorem Info_delegates_witness :
    (NewLayeredWithRepos testrepos).index "repo2/test".toList
      = some (adapter ["repo1/repo2/test".toList, "repo2/test".toList]) ∧
    ((NewLayeredWithRepos testrepos).Info "repo2/test".toList
      = (adapter ["repo1/repo2/test".toList, "repo2/test".toList]).Info "repo2/test".toList ∧
    (∀ info err,
      (adapter ["repo1/repo2/test".toList, "repo2/test".toList]).Info "repo2/test".toList
        = .returns (info, err) →
      (NewLayeredWithRepos testrepos).Info "repo2/test".toList = .returns (info, err)) ∧
    (NewLayeredWithRepos testrepos).Info "repo2/test".toList
      = .returns (some ⟨"repo2/test".toList, 0, 0o777, 1420070400, false⟩,
          some ⟨"repo2/test".toList⟩)) :=
  ⟨rfl, Info_delegates (NewLayeredWithRepos testrepos) "repo2/test".toList
    (adapter ["repo1/repo2/test".toList, "repo2/test".toList]) rfl⟩

theorem Replace_backslash_idem (p : GoString) :
    strings.Replace (strings.Replace p '\\' '/') '\\' '/' = strings.Replace p '\\' '/' := by
  simp only [strings.Replace, List.map_map]
  apply List.map_congr_left
  intro c _
  by_cases hc : c = '\\'
  · simp [hc]
  · simp [hc]

/-- C15: `Dir` replaces the backslashes of its argument only. In every state, for every
prefix `p` and every order of the keys, `Dir(p)` is `Dir(p')`, where `p'` is `p` with each
backslash replaced by a slash; for the sources of the tests `Dir("repo1\")` is
`Dir("repo1/")`. The stored names are left as they are: for a source that lists `a\b`,
`Names()` is `[a\b]` and `Dir("a\")` is empty, the name not starting with `a/`. -/
theorem Dir_normalizes_argument (range : List GoString → List GoString) (s : Layered)
    (p : GoString) :
    s.DirRange range p
      = s.DirRange range (p.map (fun c => if c = '\\' then '/' else c)) ∧
    s.Dir p = s.Dir (p.map (fun c => if c = '\\' then '/' else c)) ∧
    (NewLayeredWithRepos testrepos).Dir "repo1\\".toList
      = (NewLayeredWithRepos testrepos).Dir "repo1/".toList ∧
    (NewLayeredWithRepos [adapter ["a\\b".toList]]).Names = ["a\\b".toList] ∧
    (NewLayeredWithRepos [adapter ["a\\b".toList]]).Dir "a\\".toList = .returns ([], none) := by
  have h : ∀ rg, s.DirRange rg p
      = s.DirRange rg (p.map (fun c => if c = '\\' then '/' else c)) := fun rg => by
    have hi := Replace_backslash_idem p
    simp only [strings.Replace] at hi
    simp only [Layered.DirRange, strings.Replace, hi]
  exact ⟨h range, h id, by decide, by decide, by decide⟩

/-- C16: the reading methods are pure on the repository state. `Get`, `Info`, `Dir` and
`Names` hand on the receiver (source list, merged index, name list) unchanged; so a second
`Names()` returns what the first returned, and a second `Dir(prefix)` returns what the first
returned even when the two calls meet the keys of the intermediate map in different
orders. -/
theorem reads_are_pure (s : Layered) (c : ReadCall) (name p : GoString)
    (range₁ range₂ : List GoString → List GoString)
    (h₁ : ∀ l, (range₁ l).Perm l) (h₂ : ∀ l, (range₂ l).Perm l) :
    (s.read c).1 = s ∧
    ((s.read .Names).1.read .Names).2 = (s.read .Names).2 ∧
    ((s.read (.Dir range₁ p)).1.read (.Dir range₂ p)).2 = (s.read (.Dir range₁ p)).2 ∧
    ((s.read (.Get name)).1.read (.Get name)).2 = (s.read (.Get name)).2 ∧
    ((s.read (.Info name)).1.read (.Info name)).2 = (s.read (.Info name)).2 := by
  refine ⟨by cases c <;> rfl, rfl, ?_, rfl, rfl⟩
  simp only [Layered.read]
  rw [DirRange_eq_Dir range₁ h₁, DirRange_eq_Dir range₂ h₂]

/-- Witness of `reads_are_pure`: the sources of the tests, a first `Dir("repo1/")` that meets
the keys in the order of their insertion and a second one that meets them in reverse. -/
theorem reads_are_pure_witness :
    (∀ l : List GoString, (id l).Perm l) ∧ (∀ l : List GoString, (List.reverse l).Perm l) ∧
    (((NewLayeredWithRepos testrepos).read (.Dir id "repo1/".toList)).1
        = NewLayeredWithRepos testrepos ∧
    (((NewLayeredWithRepos testrepos).read .Names).1.read .Names).2
        = ((NewLayeredWithRepos testrepos).read .Names).2 ∧
    (((NewLayeredWithRepos testrepos).read (.Dir id "repo1/".toList)).1.read
        (.Dir List.reverse "repo1/".toList)).2
        = ((NewLayeredWithRepos testrepos).read (.Dir id "repo1/".toList)).2 ∧
    (((NewLayeredWithRepos testrepos).read (.Get "repo2/test".toList)).1.read
        (.Get "repo2/test".toList)).2
        = ((NewLayeredWithRepos testrepos).read (.Get "repo2/test".toList)).2 ∧
    (((NewLayeredWithRepos testrepos).read (.Info "repo2/test".toList)).1.read
        (.Info "repo2/test".toList)).2
        = ((NewLayeredWithRepos testrepos).read (.Info "repo2/test".toList)).2) :=
  ⟨fun _ => List.Perm.refl _, List.reverse_perm,
    reads_are_pure (NewLayeredWithRepos testrepos) (.Dir id "repo1/".toList)
      "repo2/test".toList "repo1/".toList id List.reverse (fun _ => List.Perm.refl _)
      List.reverse_perm⟩

/-- C17: `NewAdapter(f1, f2, f3, f4, f5)` proxies each method to the function in the same
position: `Get` is `f1`, `MustGet` is `f2`, `Names` is `f3`, `Info` is `f4` and `Dir` is
`f5`, result and error (and a panic) passed on as they are. -/
theorem NewAdapter_proxies (f1 : getFunc) (f2 : mustGetFunc) (f3 : namesFunc)
    (f4 : infoFunc) (f5 : dirFunc) (n : GoString) :
    (NewAdapter f1 f2 f3 f4 f5).Get n = f1 n ∧
    (NewAdapter f1 f2 f3 f4 f5).MustGet n = f2 n ∧
    (NewAdapter f1 f2 f3 f4 f5).Names = f3 ∧
    (NewAdapter f1 f2 f3 f4 f5).Info n = f4 n ∧
    (NewAdapter f1 f2 f3 f4 f5).Dir n = f5 n :=
  ⟨rfl, rfl, rfl, rfl, rfl⟩

/-- C18: the name list keeps one entry per (source, name) pair. For every list of registered
sources, registered at once or one by one, `Names()` is a permutation of the concatenation
of the sources' `Names()`, and its length is the sum of their lengths. Two sources that list
`a` give `a` twice. -/
theorem Names_perm_concat (rs : List AssetRepo) :
    (NewLayeredWithRepos rs).Names.Perm (rs.flatMap AssetRepo.Names) ∧
    (rs.foldl Layered.AddRepo NewLayered).Names.Perm (rs.flatMap AssetRepo.Names) ∧
    (NewLayeredWithRepos rs).Names.length = (rs.map (fun r => r.Names.length)).sum ∧
    (rs.foldl Layered.AddRepo NewLayered).Names.length
      = (rs.map (fun r => r.Names.length)).sum ∧
    (NewLayeredWithRepos [adapter ["a".toList, "b".toList], adapter ["a".toList]]).Names
      = ["a".toList, "a".toList, "b".toList] := by
  have hp : (NewLayeredWithRepos rs).Names.Perm (rs.flatMap AssetRepo.Names) := by
    simp only [NewLayeredWithRepos_eq, Layered.Names]
    exact sort.Strings_perm _
  have hl : (NewLayeredWithRepos rs).Names.length
      = (rs.map (fun r => r.Names.length)).sum := by
    rw [hp.length_eq, List.flatMap, List.length_flatten, List.map_map]
    rfl
  have he : rs.foldl Layered.AddRepo NewLayered = NewLayeredWithRepos rs := by
    rw [NewLayered_eq, foldl_AddRepo, List.nil_append]
  exact ⟨hp, he ▸ hp, hl, he ▸ hl, by decide⟩

/-- C19: the last-registered source owns a colliding name. For every list of sources and
every name listed by at least one of them, the list splits at the last source `b` that
lists the name, the merged index maps the name to `b`, and `Get(name)` and `Info(name)`
are `b.Get(name)` and `b.Info(name)`. So `AddRepo(r)` with `r` listing the name, which is
served already, makes `r` its owner: `Get(name)` becomes `r.Get(name)`. -/
theorem last_source_owns (rs : List AssetRepo) (name : GoString)
    (h : ∃ r ∈ rs, name ∈ r.Names) :
    (∃ pre b post, rs = pre ++ b :: post ∧ name ∈ b.Names ∧ (∀ r ∈ post, name ∉ r.Names) ∧
      (NewLayeredWithRepos rs).index name = some b ∧
      (NewLayeredWithRepos rs).Get name = b.Get name ∧
      (NewLayeredWithRepos rs).Info name = b.Info name) ∧
    ∀ r : AssetRepo, name ∈ r.Names →
      ((NewLayeredWithRepos rs).AddRepo r).index name = some r ∧
      ((NewLayeredWithRepos rs).AddRepo r).Get name = r.Get name ∧
      ((NewLayeredWithRepos rs).AddRepo r).Info name = r.Info name := by
  have key : ∀ (pre post : List AssetRepo) (b : AssetRepo), name ∈ b.Names →
      (∀ r ∈ post, name ∉ r.Names) →
      (NewLayeredWithRepos (pre ++ b :: post)).index name = some b := by
    intro pre post b hb hpost
    simp only [NewLayeredWithRepos_eq]
    exact reindex_repos_fst_last pre post b _ name hb hpost
  constructor
  · obtain ⟨pre, b, post, rfl, hb, hpost⟩ := exists_last_listing rs name h
    have hi := key pre post b hb hpost
    exact ⟨pre, b, post, rfl, hb, hpost, hi, by simp only [Layered.Get, hi],
      by simp only [Layered.Info, hi]⟩
  · intro r hr
    have hi : ((NewLayeredWithRepos rs).AddRepo r).index name = some r := by
      rw [AddRepo_eq, NewLayeredWithRepos_eq rs]
      exact key rs [] r hr (by simp)
    exact ⟨hi, by simp only [Layered.Get, hi], by simp only [Layered.Info, hi]⟩

/-- Witness of `last_source_owns`: A registered first and the source of the error `gone`
second, both listing `x`. -/
theorem last_source_owns_witness :
    (∃ r ∈ [sourceA, sourceGone], "x".toList ∈ r.Names) ∧
    ((∃ pre b post, [sourceA, sourceGone] = pre ++ b :: post ∧ "x".toList ∈ b.Names ∧
        (∀ r ∈ post, "x".toList ∉ r.Names) ∧
        (NewLayeredWithRepos [sourceA, sourceGone]).index "x".toList = some b ∧
        (NewLayeredWithRepos [sourceA, sourceGone]).Get "x".toList = b.Get "x".toList ∧
        (NewLayeredWithRepos [sourceA, sourceGone]).Info "x".toList = b.Info "x".toList) ∧
      ∀ r : AssetRepo, "x".toList ∈ r.Names →
        ((NewLayeredWithRepos [sourceA, sourceGone]).AddRepo r).index "x".toList = some r ∧
        ((NewLayeredWithRepos [sourceA, sourceGone]).AddRepo r).Get "x".toList
          = r.Get "x".toList ∧
        ((NewLayeredWithRepos [sourceA, sourceGone]).AddRepo r).Info "x".toList
          = r.Info "x".toList) :=
  ⟨⟨sourceA, by simp, by decide⟩,
    last_source_owns [sourceA, sourceGone] "x".toList ⟨sourceA, by simp, by decide⟩⟩

theorem Replace_of_not_mem (n : GoString) (hb : '\\' ∉ n) :
    strings.Replace n '\\' '/' = n := by
  simp only [strings.Replace]
  conv_rhs => rw [← List.map_id n]
  apply List.map_congr_left
  intro c hc
  have : c ≠ '\\' := fun h => hb (h ▸ hc)
  simp [this]

/-- C20: `Dir` yields the empty string as an entry when a match has nothing, or a `/`,
right after the prefix. In every state, whatever the order of the keys: for a prefix `p`
such that `p'` (`p` with its backslashes replaced), or `p'` followed by `/` and more, is a
name of `Names()`, `Dir(p)` contains the empty string; so for a name `n` of `Names()`
without a backslash `Dir(n)` contains the empty string. For the sources of the tests
`Dir("repo1")` is the list of the empty string alone. -/
theorem Dir_empty_entry (range : List GoString → List GoString)
    (hrange : ∀ l, (range l).Perm l) (s : Layered) (n : GoString) (hn : n ∈ s.Names)
    (hb : '\\' ∉ n) :
    (∃ res, s.DirRange range n = .returns (res, none) ∧ [] ∈ res) ∧
    (∀ p : GoString,
      (n = p.map (fun c => if c = '\\' then '/' else c) ∨
        ∃ t, n = p.map (fun c => if c = '\\' then '/' else c) ++ '/' :: t) →
      ∃ res, s.DirRange range p = .returns (res, none) ∧ [] ∈ res) ∧
    (NewLayeredWithRepos testrepos).DirRange range "repo1".toList
      = .returns ([[]], none) := by
  have hB : ∀ p : GoString,
      (n = p.map (fun c => if c = '\\' then '/' else c) ∨
        ∃ t, n = p.map (fun c => if c = '\\' then '/' else c) ++ '/' :: t) →
      ∃ res, s.DirRange range p = .returns (res, none) ∧ [] ∈ res := by
    intro p hp
    obtain ⟨res, hres, -, hmem⟩ := DirRange_spec range hrange s p
    refine ⟨res, hres, (hmem []).2 ⟨n, hn, ?_⟩⟩
    simp only [strings.Replace]
    rcases hp with h | ⟨t, h⟩
    · rw [← h]
      exact ⟨List.prefix_refl n, by simp⟩
    · refine ⟨⟨'/' :: t, h.symm⟩, ?_⟩
      conv_lhs => rw [h, List.drop_left]
      simp [List.takeWhile_cons]
  refine ⟨hB n (Or.inl ?_), hB, ?_⟩
  · have h := Replace_of_not_mem n hb
    simp only [strings.Replace] at h
    exact h.symm
  · rw [DirRange_eq_Dir range hrange]
    decide

/-- Witness of `Dir_empty_entry`: the sources of the tests, the keys met in reverse order and
the name `repo2/test`. -/
theorem Dir_empty_entry_witness :
    (∀ l : List GoString, (List.reverse l).Perm l) ∧
    "repo2/test".toList ∈ (NewLayeredWithRepos testrepos).Names ∧
    '\\' ∉ "repo2/test".toList ∧
    ((∃ res, (NewLayeredWithRepos testrepos).DirRange List.reverse "repo2/test".toList
        = .returns (res, none) ∧ [] ∈ res) ∧
    (∀ p : GoString,
      ("repo2/test".toList = p.map (fun c => if c = '\\' then '/' else c) ∨
        ∃ t, "repo2/test".toList
          = p.map (fun c => if c = '\\' then '/' else c) ++ '/' :: t) →
      ∃ res, (NewLayeredWithRepos testrepos).DirRange List.reverse p
        = .returns (res, none) ∧ [] ∈ res) ∧
    (NewLayeredWithRepos testrepos).DirRange List.reverse "repo1".toList
      = .returns ([[]], none)) :=
  ⟨List.reverse_perm, by decide, by decide,
    Dir_empty_entry List.reverse List.reverse_perm (NewLayeredWithRepos testrepos)
      "repo2/test".toList (by decide) (by decide)⟩

end assetrepo
